import Mathlib

/-!
Verification of the heritage-app retrieval-augmented chat pipeline.

Shallow embedding of the Python modules
`app/rag/retriever.py`, `app/rag/memory.py`, `app/storage/supabase.py`
and `app/api/routes.py`.  Python strings are modelled as `String` (or
`List Char` for character-level post-processing), floats as `ℚ`,
Python `None` as `Option`, and the external collaborators (vector
search, LLM generation) as explicit oracle parameters.
-/

namespace Heritage

/-! ## Character/string utilities mirroring Python `str` methods -/

/-- Python `str.strip()` on the left: drop leading characters satisfying `p`. -/
def dropEnds (p : Char → Bool) (l : List Char) : List Char :=
  ((l.dropWhile p).reverse.dropWhile p).reverse

/-- Python `str.lower()` (ASCII-level, character-wise). -/
def pyLower (s : String) : String :=
  String.mk (s.data.map Char.toLower)

/-- Python `pat in s` substring test, on character lists. -/
def hasSub (pat : List Char) : List Char → Bool
  | [] => pat.isEmpty
  | c :: cs => pat.isPrefixOf (c :: cs) || hasSub pat cs

/-- Python `s.startswith((p₁, …, pₙ))`: true when some pattern starts `s`. -/
def startsAny (l : List Char) (pats : List (List Char)) : Bool :=
  pats.any (fun p => p.isPrefixOf l)

/-- Helper for Python `str.split()` (whitespace split, empties dropped):
`cur` is the word currently being read, in reverse. -/
def wordsAux : List Char → List Char → List (List Char)
  | [], cur => if cur = [] then [] else [cur.reverse]
  | c :: cs, cur =>
    if c.isWhitespace then
      if cur = [] then wordsAux cs [] else cur.reverse :: wordsAux cs []
    else wordsAux cs (c :: cur)

/-- Python `str.split()` with no argument: split on whitespace runs, dropping
empty pieces. -/
def pyWords (l : List Char) : List (List Char) :=
  wordsAux l []

/-- Python `' '.join(words)`: single spaces between the pieces. -/
def joinWords : List (List Char) → List Char
  | [] => []
  | [w] => w
  | w :: w' :: ws => w ++ ' ' :: joinWords (w' :: ws)

/-- Python `s.split('. ')` restricted to the two-character separator used by
the summarizer: split on each non-overlapping occurrence of period-space. -/
def splitPS : List Char → List (List Char)
  | [] => [[]]
  | [c] => [[c]]
  | c₁ :: c₂ :: cs =>
    if c₁ = '.' ∧ c₂ = ' ' then
      [] :: splitPS cs
    else
      match splitPS (c₂ :: cs) with
      | [] => [[c₁]]
      | s :: ss => (c₁ :: s) :: ss

/-- Whether the character list contains an occurrence of period-space. -/
def hasPS : List Char → Bool
  | [] => false
  | [_] => false
  | c₁ :: c₂ :: cs => if c₁ = '.' ∧ c₂ = ' ' then true else hasPS (c₂ :: cs)

/-! ## Retriever model (`app/rag/retriever.py`) -/

/-- `MIN_RELEVANCE_SCORE = 0.3`. -/
def MIN_RELEVANCE_SCORE : ℚ := 3 / 10

/-- A retrieved `NodeWithScore`: similarity score plus the underlying node's
text and metadata (metadata values modelled as strings). -/
structure Chunk where
  text : String
  score : ℚ
  metadata : List (String × String)
  deriving DecidableEq, Repr

/-- `_generate_query_variations(query, attempt)`: the original query first,
then attempt-dependent variants.  `attempt` is a Python `int`, so `ℤ`. -/
def generate_query_variations (query : String) (attempt : ℤ) : List String :=
  let variations := [query]
  if attempt = 0 then
    if ¬ hasSub "ga".data (pyLower query).data ∧
       ¬ hasSub "translat".data (pyLower query).data then
      variations ++ ["Ga language " ++ query, query ++ " translation"]
    else
      variations
  else if attempt = 1 then
    let vs := variations ++ [query ++ " meaning", query ++ " Ga English"]
    let words := pyWords query.data
    if words.length > 3 then
      vs ++ [String.mk (joinWords (words.drop (words.length - 3)))]
    else
      vs
  else if attempt = 2 then
    let vs := variations ++ ["how to say " ++ query, query ++ " in Ga language"]
    if ¬ startsAny (pyLower query).data
        ["what".data, "how".data, "where".data, "when".data, "why".data] then
      vs ++ ["what is " ++ query]
    else
      vs
  else
    variations

/-- `_has_relevant_results(nodes)`: some node's score clears the gate.
(`if not nodes: return False` coincides with `any` on the empty list.) -/
def has_relevant_results (nodes : List Chunk) : Bool :=
  nodes.any (fun n => MIN_RELEVANCE_SCORE ≤ n.score)

/-- `max(...)` over the node scores; only ever used on non-empty lists
(guarded by `if nodes:` in the source). -/
def max_score_of : List Chunk → ℚ
  | [] => 0
  | c :: cs => cs.foldl (fun m n => max m n.score) c.score

/-- The metadata filter step: `if metadata_filter:` is false for `None`
and for the empty dict; otherwise keep chunks whose metadata matches every
filter key exactly. -/
def apply_filter (mf : Option (List (String × String))) (nodes : List Chunk) :
    List Chunk :=
  match mf with
  | none => nodes
  | some f =>
    if f.isEmpty then nodes
    else nodes.filter (fun n => f.all (fun kv => n.metadata.lookup kv.1 == some kv.2))

/-- The flattened variant sequence tried by `retrieve_context`:
attempts `0..max_retries-1` in order, each attempt's variants in order.
(The inner `return` leaves both loops, and the `best` state flows across
attempts unchanged, so the nested loops traverse exactly this sequence.) -/
def all_variants (query : String) (max_retries : ℕ) : List String :=
  (List.range max_retries).flatMap (fun a => generate_query_variations query (a : ℤ))

/-- The body of `retrieve_context`'s retry loop over the flattened variant
sequence.  `search v = none` models the `except Exception: continue` path for
a failed similarity search.  Returns the list of variants actually searched
(in order) together with the returned chunk list. -/
def retrieve_trace (search : String → Option (List Chunk))
    (mf : Option (List (String × String))) :
    List String → List Chunk → ℚ → List String × List Chunk
  | [], best, _ => ([], best)
  | v :: vs, best, best_score =>
    match search v with
    | none =>
      let r := retrieve_trace search mf vs best best_score
      (v :: r.1, r.2)
    | some raw =>
      let nodes := apply_filter mf raw
      if has_relevant_results nodes then
        ([v], nodes)
      else if ¬ nodes.isEmpty ∧ best_score < max_score_of nodes then
        let r := retrieve_trace search mf vs nodes (max_score_of nodes)
        (v :: r.1, r.2)
      else
        let r := retrieve_trace search mf vs best best_score
        (v :: r.1, r.2)

/-- `retrieve_context(query, top_k, metadata_filter, max_retries)`:
the returned chunk list.  `top_k` is absorbed into the `search` oracle
(it only parametrizes the retriever construction). -/
def retrieve_context (search : String → Option (List Chunk))
    (mf : Option (List (String × String))) (query : String)
    (max_retries : ℕ) : List Chunk :=
  (retrieve_trace search mf (all_variants query max_retries) [] 0).2

/-- The similarity-search calls `retrieve_context` performs, in order. -/
def retrieve_calls (search : String → Option (List Chunk))
    (mf : Option (List (String × String))) (query : String)
    (max_retries : ℕ) : List String :=
  (retrieve_trace search mf (all_variants query max_retries) [] 0).1

/-- The filtered result of one variant's search: `none` when the search
fails, otherwise the chunk list after the metadata filter. -/
def gate_result (search : String → Option (List Chunk))
    (mf : Option (List (String × String))) (v : String) :
    Option (List Chunk) :=
  (search v).map (apply_filter mf)

/-- Whether a variant's filtered result clears the 0.3 relevance gate. -/
def passes_gate (search : String → Option (List Chunk))
    (mf : Option (List (String × String))) (v : String) : Bool :=
  ((gate_result search mf v).map has_relevant_results).getD false

/-- The running-best fold of the retry loop, abstracted over the sequence of
filtered results of the (successful) searches. -/
def best_fold : List (List Chunk) → List Chunk → ℚ → List Chunk
  | [], best, _ => best
  | r :: rs, best, best_score =>
    if ¬ r.isEmpty ∧ best_score < max_score_of r then
      best_fold rs r (max_score_of r)
    else
      best_fold rs best best_score

/-- Maximum of `b` and the `max_score_of` of every non-empty result. -/
def fold_max (rs : List (List Chunk)) (b : ℚ) : ℚ :=
  rs.foldl (fun m r => if r.isEmpty then m else max m (max_score_of r)) b

/-- Modelled from the spec's words (for the refinement claim about the
no-gate-cleared case): the first non-empty filtered result achieving the
globally largest `max_score`, provided that largest value is strictly
positive; the empty list otherwise. -/
def spec_best (rs : List (List Chunk)) : List Chunk :=
  let M := fold_max rs 0
  if 0 < M then
    (rs.find? (fun r => !r.isEmpty && (max_score_of r == M))).getD []
  else
    []

/-! ## Message storage model (`app/storage/supabase.py`) -/

/-- A row of the `messages` table; `created_at` is left implicit: a
conversation's rows are passed around already sorted ascending by
`created_at`, exactly as the SQL `ORDER BY created_at` produces them. -/
structure MessageRow where
  role : String
  content : String
  deriving DecidableEq, Repr

/-- `get_messages(conversation_id, limit)` applied to the conversation's
messages in ascending `created_at` order: `ORDER BY created_at ASC` followed
by `LIMIT n` keeps the first `n` rows of the ascending order.  Python's
`if limit:` treats both `None` and `0` as "no limit". -/
def get_messages (msgs : List MessageRow) (limit : Option ℕ) : List MessageRow :=
  match limit with
  | none => msgs
  | some n => if n = 0 then msgs else msgs.take n

/-- The LangChain message objects produced by `get_memory_window`. -/
inductive LCMessage where
  | human (content : String)
  | ai (content : String)
  | system (content : String)
  deriving DecidableEq, Repr

/-- The role dispatch of `get_memory_window`: unknown roles default to a
`HumanMessage`. -/
def row_to_lc (m : MessageRow) : LCMessage :=
  match m.role with
  | "user" => .human m.content
  | "assistant" => .ai m.content
  | "system" => .system m.content
  | _ => .human m.content

/-- `MEMORY_WINDOW_SIZE = 10`. -/
def MEMORY_WINDOW_SIZE : ℕ := 10

/-- `get_memory_window(conversation_id, window_size)` over the conversation's
ascending-ordered messages. -/
def get_memory_window (msgs : List MessageRow)
    (window_size : ℕ := MEMORY_WINDOW_SIZE) : List LCMessage :=
  (get_messages msgs (some window_size)).map row_to_lc

/-! ## ConversationMeta storage (`conversation_summaries` table) -/

/-- A row of `conversation_summaries`: `summary` is NOT NULL (the source
comments call this out), `title` is nullable. -/
structure MetaRow where
  summary : String
  title : Option String
  deriving DecidableEq, Repr

/-- The table keyed by `conversation_id`. -/
def MetaStore := String → Option MetaRow

/-- Python truthiness of an optional string: `None` and `""` are falsy. -/
def truthyStr : Option String → Bool
  | none => false
  | some s => ¬ s.isEmpty

/-- PostgREST upsert on the `conversation_id` primary key with payload
columns `summary` (always present for the two callers below) and `title`
(present iff `pt = some _`): on conflict only the payload columns are
updated; on insert a missing `title` column becomes NULL. -/
def upsert_meta (store : MetaStore) (cid : String) (ps : String)
    (pt : Option String) : MetaStore :=
  fun c =>
    if c = cid then
      match store cid with
      | some row =>
        some { summary := ps,
               title := match pt with | some t => some t | none => row.title }
      | none => some { summary := ps, title := pt }
    else
      store c

/-- `save_conversation_summary(conversation_id, summary, title=None)`:
re-reads the row, re-attaches a truthy existing title when the call itself
carries none, then upserts. -/
def save_conversation_summary (store : MetaStore) (cid : String)
    (summary : String) (title : Option String) : MetaStore :=
  let existing := store cid
  let payload_title : Option String :=
    match existing with
    | some row =>
      if truthyStr row.title ∧ ¬ truthyStr title then row.title
      else if truthyStr title then title
      else none
    | none => if truthyStr title then title else none
  upsert_meta store cid summary payload_title

/-- `save_conversation_title(conversation_id, title)`: re-reads the row and
always sends both columns, preserving a truthy existing summary and sending
`""` otherwise (the column is NOT NULL). -/
def save_conversation_title (store : MetaStore) (cid : String)
    (title : String) : MetaStore :=
  let payload_summary : String :=
    match store cid with
    | some row => if truthyStr (some row.summary) then row.summary else ""
    | none => ""
  upsert_meta store cid payload_summary (some title)

/-- `get_conversation_summary`: `None` when no row exists, otherwise the
(possibly empty) stored summary string. -/
def get_conversation_summary (store : MetaStore) (cid : String) :
    Option String :=
  (store cid).map (·.summary)

/-- `get_conversation_title`: `None` when no row exists or the stored title
is NULL. -/
def get_conversation_title (store : MetaStore) (cid : String) :
    Option String :=
  (store cid).bind (·.title)

/-! ## Titler and Summarizer post-processing (`app/rag/memory.py`) -/

/-- The Titler's clean-up of the raw generation:
`strip().strip('"').strip("'").strip()`, then truncate to the first 8
whitespace-separated words when there are more than 8
(`' '.join(words[:8])`). -/
def title_post_process (raw : List Char) : List Char :=
  let t := dropEnds Char.isWhitespace
    (dropEnds (· = '\'')
      (dropEnds (· = '"') (dropEnds Char.isWhitespace raw)))
  let words := pyWords t
  if words.length > 8 then joinWords (words.take 8) else t

/-- The Summarizer's clean-up of the raw generation:
`strip().strip('"').strip("'")`, then, when splitting on period-space gives
more than one piece, keep the first piece and re-append a period. -/
def summary_post_process (raw : List Char) : List Char :=
  let t := dropEnds (· = '\'')
    (dropEnds (· = '"') (dropEnds Char.isWhitespace raw))
  match splitPS t with
  | s :: _ :: _ => s ++ ['.']
  | _ => t

/-- The stripped text the Summarizer splits (exposed for stating claims). -/
def summary_stripped (raw : List Char) : List Char :=
  dropEnds (· = '\'') (dropEnds (· = '"') (dropEnds Char.isWhitespace raw))

/-! ## Context Assembler (`get_conversation_context`) -/

/-- Result of `get_conversation_context`, instrumented with which generators
were invoked.  `gen_title`/`gen_summary` are the Titler/Summarizer oracles
(their return values; each also persists as a side effect, which the claims
here do not need). -/
structure CtxResult where
  summary : Option String
  memory_window : List LCMessage
  title : Option String
  titler_invoked : Bool
  summarizer_invoked : Bool
  deriving DecidableEq, Repr

/-- `get_conversation_context(conversation_id)`: get-or-generate for title
and summary (`if not title:` / `if not summary:` — any falsy stored value
triggers regeneration), then a fresh memory window. -/
def get_conversation_context (store : MetaStore) (cid : String)
    (msgs : List MessageRow) (gen_title gen_summary : Option String) :
    CtxResult :=
  let t0 := get_conversation_title store cid
  let (t, ti) := if truthyStr t0 then (t0, false) else (gen_title, true)
  let s0 := get_conversation_summary store cid
  let (s, si) := if truthyStr s0 then (s0, false) else (gen_summary, true)
  { summary := s
    memory_window := get_memory_window msgs
    title := t
    titler_invoked := ti
    summarizer_invoked := si }

/-! ## Continue-chat endpoint (`app/api/routes.py`) -/

/-- A row of the `messages` table together with its conversation key, for
modelling the whole message store. -/
structure StoredMessage where
  conversation_id : String
  role : String
  content : String
  deriving DecidableEq, Repr

/-- `save_message` with an explicit `conversation_id`: insert a new row
(appended, i.e. latest `created_at`). -/
def save_message (st : List StoredMessage) (cid role content : String) :
    List StoredMessage :=
  st ++ [{ conversation_id := cid, role := role, content := content }]

/-- `conversation_exists(conversation_id)`: at least one message row with
this key. -/
def conversation_exists (st : List StoredMessage) (cid : String) : Bool :=
  st.any (fun m => m.conversation_id == cid)

/-- The HTTP errors raised by `continue_chat_endpoint`. -/
inductive ApiError where
  | validationError
  | notFound
  | unavailable
  deriving DecidableEq, Repr

/-- `continue_chat_endpoint(conversation_id, request, ...)`: empty-query
check, then existence check, then vector-collection check, and only then the
user-message insert followed by the `ask` pipeline (abstracted as the
`pipeline` oracle, which may append further rows and returns the answer
text; this covers both the streaming and the batch mode, whose persistence
behaviour is identical).  Returns the response together with the final
message store. -/
def continue_chat_endpoint (st : List StoredMessage) (cid query : String)
    (coll_exists : Bool)
    (pipeline : List StoredMessage → List StoredMessage × String) :
    Except ApiError String × List StoredMessage :=
  if query = "" then (.error .validationError, st)
  else if ¬ conversation_exists st cid then (.error .notFound, st)
  else if ¬ coll_exists then (.error .unavailable, st)
  else
    let st₁ := save_message st cid "user" query
    let r := pipeline st₁
    (.ok r.2, r.1)

/-! ## Concrete inputs used by witnesses and counterexamples -/

/-- An eleven-message conversation, ascending `created_at` order. -/
def msgs11 : List MessageRow :=
  [⟨"user", "m0"⟩, ⟨"assistant", "m1"⟩, ⟨"user", "m2"⟩, ⟨"assistant", "m3"⟩,
   ⟨"user", "m4"⟩, ⟨"assistant", "m5"⟩, ⟨"user", "m6"⟩, ⟨"assistant", "m7"⟩,
   ⟨"user", "m8"⟩, ⟨"assistant", "m9"⟩, ⟨"user", "m10"⟩]

/-- A chunk whose similarity score is exactly `0`. -/
def chunk0 : Chunk := { text := "t0", score := 0, metadata := [] }

/-- A chunk below the relevance gate but with positive score. -/
def chunkLow : Chunk := { text := "tlow", score := 1 / 5, metadata := [] }

/-- A chunk clearing the relevance gate. -/
def chunkGood : Chunk := { text := "tgood", score := 1 / 2, metadata := [] }

/-- A search oracle returning a single zero-score chunk for every variant. -/
def searchZero : String → Option (List Chunk) := fun _ => some [chunk0]

/-- A search oracle returning a single positive sub-gate chunk for every
variant. -/
def searchLow : String → Option (List Chunk) := fun _ => some [chunkLow]

/-- A search oracle where only the second variant of attempt 0 for the query
`"hi"` clears the gate. -/
def searchSecond : String → Option (List Chunk) := fun v =>
  if v = "Ga language hi" then some [chunkGood] else some []

/-! ## Helper lemmas -/

theorem truthyStr_eq_false_iff (o : Option String) :
    truthyStr o = false ↔ o = none ∨ o = some "" := by
  cases o with
  | none => simp [truthyStr]
  | some s =>
    simp only [truthyStr, Bool.not_eq_true', String.isEmpty_iff]
    constructor
    · intro h
      exact Or.inr (by simpa using h)
    · rintro (h | h)
      · exact absurd h (by simp)
      · simpa using h

theorem generate_query_variations_cons (q : String) (a : ℤ) :
    ∃ rest, generate_query_variations q a = q :: rest := by
  unfold generate_query_variations
  dsimp only
  split_ifs <;> exact ⟨_, rfl⟩

theorem upsert_meta_apply_self (store : MetaStore) (cid ps : String)
    (pt : Option String) :
    upsert_meta store cid ps pt cid =
      some (match store cid with
        | some row =>
          { summary := ps,
            title := match pt with | some x => some x | none => row.title }
        | none => { summary := ps, title := pt }) := by
  unfold upsert_meta
  cases h : store cid <;> simp [h]

theorem ctx_titler_invoked (store : MetaStore) (cid : String)
    (msgs : List MessageRow) (gt gs : Option String) :
    (get_conversation_context store cid msgs gt gs).titler_invoked =
      ! truthyStr (get_conversation_title store cid) := by
  unfold get_conversation_context
  cases h : truthyStr (get_conversation_title store cid) <;> simp [h]

theorem ctx_summarizer_invoked (store : MetaStore) (cid : String)
    (msgs : List MessageRow) (gt gs : Option String) :
    (get_conversation_context store cid msgs gt gs).summarizer_invoked =
      ! truthyStr (get_conversation_summary store cid) := by
  unfold get_conversation_context
  cases h1 : truthyStr (get_conversation_title store cid) <;>
    cases h2 : truthyStr (get_conversation_summary store cid) <;>
      simp [h1, h2]

/-! ## Claim theorems -/

/-- C6: for every query string and every attempt index, the list returned by
`_generate_query_variations` has the unmodified original query as its first
element, with every other variant appended after it (and, being a pure
function of `(query, attempt)`, the order is deterministic). -/
theorem c6_variations_original_first (q : String) (a : ℤ) :
    (generate_query_variations q a).head? = some q := by
  obtain ⟨rest, h⟩ := generate_query_variations_cons q a
  rw [h]
  rfl

/-- C10: for every attempt index outside `{0, 1, 2}`,
`_generate_query_variations` returns exactly the singleton original query;
consequently the variant list is never empty. -/
theorem c10_variations_default_singleton :
    (∀ (q : String) (a : ℤ), a ≠ 0 → a ≠ 1 → a ≠ 2 →
      generate_query_variations q a = [q]) ∧
    (∀ (q : String) (a : ℤ), generate_query_variations q a ≠ []) := by
  constructor
  · intro q a h0 h1 h2
    unfold generate_query_variations
    simp [h0, h1, h2]
  · intro q a
    obtain ⟨rest, h⟩ := generate_query_variations_cons q a
    rw [h]
    intro hnil
    cases hnil

/-- Witness for C10 at concrete attempts `-1` and `5`. -/
theorem c10_variations_default_singleton_witness :
    generate_query_variations "hello" (-1) = ["hello"] ∧
    generate_query_variations "hello" 5 ≠ [] :=
  ⟨c10_variations_default_singleton.1 "hello" (-1)
      (by decide) (by decide) (by decide),
    c10_variations_default_singleton.2 "hello" 5⟩

/-- C1 (code bug): on an eleven-message conversation with window size 10,
`get_memory_window` returns the ten *oldest* messages (ascending `ORDER BY
created_at` followed by `LIMIT 10` keeps the head of the ascending order),
not the ten most recent ones that the claim — and the function's own
docstring — promise. -/
theorem c1_memory_window_keeps_oldest :
    get_memory_window msgs11 10 = (msgs11.take 10).map row_to_lc ∧
    get_memory_window msgs11 10 ≠ (msgs11.drop 1).map row_to_lc := by
  constructor
  · rfl
  · decide

/-- C5: with a non-empty query and an unknown `conversation_id`, the
continue-chat endpoint raises NotFound and the message store is unchanged:
the existence check runs before any `save_message` call. -/
theorem c5_continue_chat_not_found (st : List StoredMessage)
    (cid query : String) (coll_exists : Bool)
    (pipeline : List StoredMessage → List StoredMessage × String)
    (hq : query ≠ "") (hmiss : conversation_exists st cid = false) :
    continue_chat_endpoint st cid query coll_exists pipeline =
      (.error .notFound, st) := by
  unfold continue_chat_endpoint
  simp [hq, hmiss]

/-- Witness for C5: a store holding another conversation, queried with an
unknown id. -/
theorem c5_continue_chat_not_found_witness :
    continue_chat_endpoint [⟨"conv-a", "user", "hello"⟩] "conv-b" "hi" true
        (fun s => (s, "answer")) =
      (.error .notFound, [⟨"conv-a", "user", "hello"⟩]) :=
  c5_continue_chat_not_found _ _ _ _ _ (by decide) (by decide)

/-- C4: title-only then summary-only meta upserts (and the opposite order)
for the same `conversation_id` end with a record holding both values;
neither save clears the sibling field, except that the very first write
leaves the unwritten field empty (title save) resp. absent (summary save). -/
theorem c4_meta_upserts_commute (store : MetaStore) (cid s t : String)
    (hs : s ≠ "") (ht : t ≠ "") :
    (save_conversation_summary (save_conversation_title store cid t)
        cid s none) cid = some { summary := s, title := some t } ∧
    (save_conversation_title (save_conversation_summary store cid s none)
        cid t) cid = some { summary := s, title := some t } ∧
    (store cid = none →
      save_conversation_title store cid t cid =
        some { summary := "", title := some t } ∧
      save_conversation_summary store cid s none cid =
        some { summary := s, title := none }) := by
  have hte : t.isEmpty = false := by
    rw [← Bool.not_eq_true, String.isEmpty_iff]; exact ht
  have hse : s.isEmpty = false := by
    rw [← Bool.not_eq_true, String.isEmpty_iff]; exact hs
  refine ⟨?_, ?_, ?_⟩
  · unfold save_conversation_summary save_conversation_title
    cases h : store cid <;>
      simp [upsert_meta_apply_self, h, truthyStr, hte, hse]
  · unfold save_conversation_summary save_conversation_title
    cases h : store cid with
    | none => simp [upsert_meta_apply_self, h, truthyStr, hte, hse]
    | some row =>
      cases hrow : row.title with
      | none => simp [upsert_meta_apply_self, h, hrow, truthyStr, hte, hse]
      | some rt =>
        cases hrte : rt.isEmpty <;>
          simp [upsert_meta_apply_self, h, hrow, hrte, truthyStr, hte, hse]
  · intro h
    unfold save_conversation_summary save_conversation_title
    simp [upsert_meta_apply_self, h, truthyStr, hte, hse]

/-- Witness for C4 on the empty store with concrete strings. -/
theorem c4_meta_upserts_commute_witness :
    (save_conversation_summary
        (save_conversation_title (fun _ => none) "c" "My Title") "c"
        "My summary" none) "c" =
      some { summary := "My summary", title := some "My Title" } ∧
    (save_conversation_title
        (save_conversation_summary (fun _ => none) "c" "My summary" none)
        "c" "My Title") "c" =
      some { summary := "My summary", title := some "My Title" } ∧
    ((fun (_ : String) => (none : Option MetaRow)) "c" = none →
      save_conversation_title (fun _ => none) "c" "My Title" "c" =
        some { summary := "", title := some "My Title" } ∧
      save_conversation_summary (fun _ => none) "c" "My summary" none "c" =
        some { summary := "My summary", title := none }) :=
  c4_meta_upserts_commute (fun _ => none) "c" "My summary" "My Title"
    (by decide) (by decide)

/-- C9: the Context Assembler regenerates title/summary on any falsy stored
value (absent row, NULL, or the empty string); in particular a title-only
save creates the row with `summary = ""`, so the next context assembly
re-invokes the Summarizer even though a summary field is stored. -/
theorem c9_context_regenerates_on_falsy :
    (∀ (store : MetaStore) (cid : String) (msgs : List MessageRow)
        (gt gs : Option String),
      ((get_conversation_context store cid msgs gt gs).titler_invoked = true ↔
        (get_conversation_title store cid = none ∨
          get_conversation_title store cid = some "")) ∧
      ((get_conversation_context store cid msgs gt gs).summarizer_invoked
          = true ↔
        (get_conversation_summary store cid = none ∨
          get_conversation_summary store cid = some ""))) ∧
    (∀ (store : MetaStore) (cid t : String) (msgs : List MessageRow)
        (gt gs : Option String), store cid = none →
      get_conversation_summary (save_conversation_title store cid t) cid =
        some "" ∧
      (get_conversation_context (save_conversation_title store cid t) cid
          msgs gt gs).summarizer_invoked = true) := by
  constructor
  · intro store cid msgs gt gs
    constructor
    · rw [ctx_titler_invoked, Bool.not_eq_true', truthyStr_eq_false_iff]
    · rw [ctx_summarizer_invoked, Bool.not_eq_true', truthyStr_eq_false_iff]
  · intro store cid t msgs gt gs h
    have hsum :
        get_conversation_summary (save_conversation_title store cid t) cid =
          some "" := by
      unfold save_conversation_title get_conversation_summary
      simp [upsert_meta_apply_self, h]
    refine ⟨hsum, ?_⟩
    rw [ctx_summarizer_invoked, hsum]
    rfl

/-- Witness for C9: empty stores, a stored-empty-summary row, and the
title-save-then-assemble scenario at concrete inputs. -/
theorem c9_context_regenerates_on_falsy_witness :
    (((get_conversation_context
          (fun _ => some { summary := "", title := some "T" }) "c" [] none
          none).titler_invoked = true ↔
        (get_conversation_title
            (fun _ => some { summary := "", title := some "T" }) "c" = none ∨
          get_conversation_title
            (fun _ => some { summary := "", title := some "T" }) "c" =
            some "")) ∧
      ((get_conversation_context
          (fun _ => some { summary := "", title := some "T" }) "c" [] none
          none).summarizer_invoked = true ↔
        (get_conversation_summary
            (fun _ => some { summary := "", title := some "T" }) "c" =
            none ∨
          get_conversation_summary
            (fun _ => some { summary := "", title := some "T" }) "c" =
            some ""))) ∧
    (get_conversation_summary
        (save_conversation_title (fun _ => none) "c" "T") "c" = some "" ∧
      (get_conversation_context (save_conversation_title (fun _ => none) "c"
          "T") "c" [] none none).summarizer_invoked = true) :=
  ⟨c9_context_regenerates_on_falsy.1
      (fun _ => some { summary := "", title := some "T" }) "c" [] none none,
    c9_context_regenerates_on_falsy.2 (fun _ => none) "c" "T" [] none none
      rfl⟩

theorem wordsAux_nil_eq (cur : List Char) :
    wordsAux [] cur = if cur = [] then [] else [cur.reverse] := rfl

theorem wordsAux_cons_eq (c : Char) (cs cur : List Char) :
    wordsAux (c :: cs) cur =
      if c.isWhitespace then
        if cur = [] then wordsAux cs [] else cur.reverse :: wordsAux cs []
      else wordsAux cs (c :: cur) := rfl

theorem wordsAux_clean :
    ∀ (l cur : List Char), (∀ c ∈ cur, c.isWhitespace = false) →
      ∀ w ∈ wordsAux l cur, w ≠ [] ∧ ∀ c ∈ w, c.isWhitespace = false := by
  intro l
  induction l with
  | nil =>
    intro cur hcur w hw
    unfold wordsAux at hw
    by_cases hc : cur = []
    · simp [hc] at hw
    · rw [if_neg hc] at hw
      simp only [List.mem_singleton] at hw
      subst hw
      refine ⟨by simpa using hc, ?_⟩
      intro c hc'
      exact hcur c (List.mem_reverse.mp hc')
  | cons c cs ih =>
    intro cur hcur w hw
    unfold wordsAux at hw
    by_cases hws : c.isWhitespace
    · rw [if_pos hws] at hw
      by_cases hc : cur = []
      · rw [if_pos hc] at hw
        exact ih [] (by simp) w hw
      · rw [if_neg hc] at hw
        rcases List.mem_cons.mp hw with hw | hw
        · subst hw
          refine ⟨by simpa using hc, ?_⟩
          intro x hx
          exact hcur x (List.mem_reverse.mp hx)
        · exact ih [] (by simp) w hw
    · rw [if_neg hws] at hw
      refine ih (c :: cur) ?_ w hw
      intro x hx
      rcases List.mem_cons.mp hx with h | h
      · subst h
        simpa using hws
      · exact hcur x h

theorem wordsAux_append_word (l : List Char) :
    ∀ (w cur : List Char), (∀ c ∈ w, c.isWhitespace = false) →
      wordsAux (w ++ l) cur = wordsAux l (w.reverse ++ cur) := by
  intro w
  induction w with
  | nil =>
    intro cur _
    simp
  | cons c w' ih =>
    intro cur hw
    have hc : c.isWhitespace = false := hw c (by simp)
    have hw' : ∀ x ∈ w', x.isWhitespace = false := by
      intro x hx
      exact hw x (by simp [hx])
    have step : wordsAux ((c :: w') ++ l) cur = wordsAux (w' ++ l) (c :: cur) := by
      rw [List.cons_append, wordsAux_cons_eq, hc]
      simp
    rw [step, ih (c :: cur) hw']
    congr 1
    simp

theorem pyWords_joinWords :
    ∀ ws : List (List Char),
      (∀ w ∈ ws, w ≠ [] ∧ ∀ c ∈ w, c.isWhitespace = false) →
      pyWords (joinWords ws) = ws := by
  intro ws
  induction ws with
  | nil =>
    intro _
    rfl
  | cons w rest ih =>
    intro h
    obtain ⟨hwne, hwcl⟩ := h w (by simp)
    have hrest : ∀ u ∈ rest, u ≠ [] ∧ ∀ c ∈ u, c.isWhitespace = false := by
      intro u hu
      exact h u (by simp [hu])
    have hrevne : w.reverse ++ [] ≠ [] := by
      simp [hwne]
    have hwrev : w.reverse ≠ [] := by
      simpa using hwne
    cases rest with
    | nil =>
      have h1 : wordsAux (w ++ []) [] = wordsAux [] (w.reverse ++ []) :=
        wordsAux_append_word [] w [] hwcl
      rw [List.append_nil, List.append_nil] at h1
      show wordsAux w [] = [w]
      rw [h1, wordsAux_nil_eq, if_neg hwrev]
      simp
    | cons w' rest' =>
      have h1 : wordsAux (w ++ ' ' :: joinWords (w' :: rest')) [] =
          wordsAux (' ' :: joinWords (w' :: rest')) (w.reverse ++ []) :=
        wordsAux_append_word (' ' :: joinWords (w' :: rest')) w [] hwcl
      show wordsAux (w ++ ' ' :: joinWords (w' :: rest')) [] = w :: w' :: rest'
      rw [h1, List.append_nil, wordsAux_cons_eq,
        if_pos (show (' ').isWhitespace = true from rfl), if_neg hwrev,
        List.reverse_reverse]
      have h2 := ih hrest
      unfold pyWords at h2
      rw [h2]

/-- C7: the Titler's post-processing always yields at most 8
whitespace-separated words, whatever the raw generation was. -/
theorem c7_title_at_most_eight_words (raw : List Char) :
    (pyWords (title_post_process raw)).length ≤ 8 := by
  unfold title_post_process
  dsimp only
  by_cases h :
      (pyWords (dropEnds Char.isWhitespace
        (dropEnds (· = '\'')
          (dropEnds (· = '"') (dropEnds Char.isWhitespace raw))))).length > 8
  · rw [if_pos h]
    have hclean := wordsAux_clean
      (dropEnds Char.isWhitespace
        (dropEnds (· = '\'')
          (dropEnds (· = '"') (dropEnds Char.isWhitespace raw)))) []
      (by simp)
    have hjoin := pyWords_joinWords
      ((pyWords (dropEnds Char.isWhitespace
        (dropEnds (· = '\'')
          (dropEnds (· = '"') (dropEnds Char.isWhitespace raw))))).take 8)
      (fun w hw => hclean w (List.mem_of_mem_take hw))
    rw [hjoin]
    exact List.length_take_le 8 _
  · rw [if_neg h]
    omega

theorem splitPS_cons_cons_eq (c₁ c₂ : Char) (cs : List Char) :
    splitPS (c₁ :: c₂ :: cs) =
      if c₁ = '.' ∧ c₂ = ' ' then
        [] :: splitPS cs
      else
        match splitPS (c₂ :: cs) with
        | [] => [[c₁]]
        | s :: ss => (c₁ :: s) :: ss := rfl

theorem hasPS_cons_cons_eq (c₁ c₂ : Char) (cs : List Char) :
    hasPS (c₁ :: c₂ :: cs) =
      if c₁ = '.' ∧ c₂ = ' ' then true else hasPS (c₂ :: cs) := rfl

theorem splitPS_ne_nil (l : List Char) : splitPS l ≠ [] := by
  induction l using splitPS.induct with
  | case1 => simp [splitPS]
  | case2 c => simp [splitPS]
  | case3 c₁ c₂ cs h ih =>
    rw [splitPS_cons_cons_eq, if_pos h]
    simp
  | case4 c₁ c₂ cs h hnil ih =>
    exact absurd hnil ih
  | case5 c₁ c₂ cs h s ss hcons ih =>
    rw [splitPS_cons_cons_eq, if_neg h, hcons]
    simp

theorem splitPS_head_clean :
    ∀ (l s : List Char) (ss : List (List Char)), splitPS l = s :: ss →
      hasPS s = false ∧ (s = [] ∨ s.head? = l.head?) := by
  intro l
  induction l using splitPS.induct with
  | case1 =>
    intro s ss h
    simp only [splitPS] at h
    obtain ⟨h1, h2⟩ := List.cons_eq_cons.mp h
    subst h1
    exact ⟨rfl, Or.inl rfl⟩
  | case2 c =>
    intro s ss h
    simp only [splitPS] at h
    obtain ⟨h1, h2⟩ := List.cons_eq_cons.mp h
    subst h1
    exact ⟨rfl, Or.inr rfl⟩
  | case3 c₁ c₂ cs hcond ih =>
    intro s ss h
    rw [splitPS_cons_cons_eq, if_pos hcond] at h
    obtain ⟨h1, h2⟩ := List.cons_eq_cons.mp h
    subst h1
    exact ⟨rfl, Or.inl rfl⟩
  | case4 c₁ c₂ cs hcond hnil ih =>
    exact absurd hnil (splitPS_ne_nil _)
  | case5 c₁ c₂ cs hcond s' ss' hcons ih =>
    intro s ss h
    rw [splitPS_cons_cons_eq, if_neg hcond, hcons] at h
    obtain ⟨h1, h2⟩ := List.cons_eq_cons.mp h
    subst h1
    obtain ⟨hno, hhead⟩ := ih s' ss' hcons
    refine ⟨?_, Or.inr rfl⟩
    cases s' with
    | nil => rfl
    | cons d s'' =>
      rcases hhead with h' | h'
      · cases h'
      · have hd : d = c₂ := by simpa using h'
        subst hd
        rw [hasPS_cons_cons_eq, if_neg hcond]
        exact hno

theorem hasPS_append_period :
    ∀ x : List Char, hasPS x = false → hasPS (x ++ ['.']) = false := by
  intro x
  induction x using hasPS.induct with
  | case1 =>
    intro _
    rfl
  | case2 c =>
    intro _
    show hasPS [c, '.'] = false
    rw [hasPS_cons_cons_eq, if_neg (by simp)]
    rfl
  | case3 c₁ c₂ cs hcond =>
    intro h
    rw [hasPS_cons_cons_eq, if_pos hcond] at h
    cases h
  | case4 c₁ c₂ cs hcond ih =>
    intro h
    rw [hasPS_cons_cons_eq, if_neg hcond] at h
    show hasPS (c₁ :: c₂ :: (cs ++ ['.'])) = false
    rw [hasPS_cons_cons_eq, if_neg hcond]
    exact ih h

theorem splitPS_of_no_ps :
    ∀ x : List Char, hasPS x = false → splitPS x = [x] := by
  intro x
  induction x using splitPS.induct with
  | case1 =>
    intro _
    rfl
  | case2 c =>
    intro _
    rfl
  | case3 c₁ c₂ cs hcond ih =>
    intro h
    rw [hasPS_cons_cons_eq, if_pos hcond] at h
    cases h
  | case4 c₁ c₂ cs hcond hnil ih =>
    exact absurd hnil (splitPS_ne_nil _)
  | case5 c₁ c₂ cs hcond s ss hcons ih =>
    intro h
    rw [hasPS_cons_cons_eq, if_neg hcond] at h
    have h2 := ih h
    rw [splitPS_cons_cons_eq, if_neg hcond, h2]

/-- C8: when the stripped raw generation splits on period-space into more
than one piece, the Summarizer's post-processed output is a single
period-space-free segment ending in a terminal period: splitting it again
yields exactly one sentence. -/
theorem c8_summary_single_sentence (raw : List Char)
    (h : 2 ≤ (splitPS (summary_stripped raw)).length) :
    splitPS (summary_post_process raw) = [summary_post_process raw] ∧
    (summary_post_process raw).getLast? = some '.' := by
  unfold summary_post_process
  dsimp only
  rcases hs : splitPS (summary_stripped raw) with - | ⟨s, - | ⟨s', ss⟩⟩
  · exact absurd hs (splitPS_ne_nil _)
  · rw [hs] at h
    simp at h
  · unfold summary_stripped at hs
    rw [hs]
    dsimp only
    have hno := (splitPS_head_clean _ s (s' :: ss) hs).1
    have hno' := hasPS_append_period s hno
    exact ⟨splitPS_of_no_ps _ hno', List.getLast?_concat s⟩

/-- Witness for C8 on a three-sentence raw generation. -/
theorem c8_summary_single_sentence_witness :
    2 ≤ (splitPS (summary_stripped "\"One. Two. Three\"".data)).length ∧
    (splitPS (summary_post_process "\"One. Two. Three\"".data) =
        [summary_post_process "\"One. Two. Three\"".data] ∧
      (summary_post_process "\"One. Two. Three\"".data).getLast? =
        some '.') :=
  ⟨by decide, c8_summary_single_sentence "\"One. Two. Three\"".data
    (by decide)⟩

theorem retrieve_trace_cons_eq (search : String → Option (List Chunk))
    (mf : Option (List (String × String))) (v : String) (vs : List String)
    (best : List Chunk) (bs : ℚ) :
    retrieve_trace search mf (v :: vs) best bs =
      match search v with
      | none =>
        let r := retrieve_trace search mf vs best bs
        (v :: r.1, r.2)
      | some raw =>
        let nodes := apply_filter mf raw
        if has_relevant_results nodes then
          ([v], nodes)
        else if ¬ nodes.isEmpty ∧ bs < max_score_of nodes then
          let r := retrieve_trace search mf vs nodes (max_score_of nodes)
          (v :: r.1, r.2)
        else
          let r := retrieve_trace search mf vs best bs
          (v :: r.1, r.2) := rfl

theorem passes_gate_none {search : String → Option (List Chunk)}
    {mf : Option (List (String × String))} {v : String}
    (hsv : search v = none) : passes_gate search mf v = false := by
  unfold passes_gate gate_result
  rw [hsv]
  rfl

theorem passes_gate_some {search : String → Option (List Chunk)}
    {mf : Option (List (String × String))} {v : String}
    {raw : List Chunk} (hsv : search v = some raw) :
    passes_gate search mf v = has_relevant_results (apply_filter mf raw) := by
  unfold passes_gate gate_result
  rw [hsv]
  rfl

theorem retrieve_trace_first_pass (search : String → Option (List Chunk))
    (mf : Option (List (String × String))) (v : String)
    (hv : passes_gate search mf v = true) :
    ∀ (l₁ : List String) (l₂ : List String) (best : List Chunk) (bs : ℚ),
      (∀ u ∈ l₁, passes_gate search mf u = false) →
      retrieve_trace search mf (l₁ ++ v :: l₂) best bs =
        (l₁ ++ [v], (gate_result search mf v).getD []) := by
  intro l₁
  induction l₁ with
  | nil =>
    intro l₂ best bs _
    cases hsv : search v with
    | none =>
      rw [passes_gate_none hsv] at hv
      cases hv
    | some raw =>
      have hrel : has_relevant_results (apply_filter mf raw) = true := by
        rw [passes_gate_some hsv] at hv
        exact hv
      rw [List.nil_append, retrieve_trace_cons_eq, hsv]
      dsimp only
      rw [if_pos hrel]
      unfold gate_result
      rw [hsv]
      rfl
  | cons u l₁ ih =>
    intro l₂ best bs hprev
    have hu : passes_gate search mf u = false := hprev u (by simp)
    have hrest : ∀ x ∈ l₁, passes_gate search mf x = false := by
      intro x hx
      exact hprev x (by simp [hx])
    rw [List.cons_append, retrieve_trace_cons_eq]
    cases hsu : search u with
    | none =>
      dsimp only
      rw [ih l₂ best bs hrest]
      rfl
    | some raw =>
      have hrel : has_relevant_results (apply_filter mf raw) = false := by
        rw [passes_gate_some hsu] at hu
        exact hu
      dsimp only
      rw [if_neg (by rw [hrel]; exact Bool.false_ne_true)]
      by_cases hupd :
          ¬ (apply_filter mf raw).isEmpty ∧ bs < max_score_of (apply_filter mf raw)
      · rw [if_pos hupd,
          ih l₂ (apply_filter mf raw) (max_score_of (apply_filter mf raw)) hrest]
        rfl
      · rw [if_neg hupd, ih l₂ best bs hrest]
        rfl

/-- C3: if, in the attempt/variant iteration order, variant `v` is the first
whose filtered result clears the 0.3 gate (all earlier variants `l₁` fail
it), `retrieve_context` returns exactly `v`'s filtered chunk list and the
similarity searches performed are exactly the earlier variants plus `v` —
none for any later variant or attempt. -/
theorem c3_first_gate_pass_short_circuits
    (search : String → Option (List Chunk))
    (mf : Option (List (String × String))) (q : String) (mr : ℕ)
    (l₁ l₂ : List String) (v : String)
    (hsplit : all_variants q mr = l₁ ++ v :: l₂)
    (hprev : ∀ u ∈ l₁, passes_gate search mf u = false)
    (hv : passes_gate search mf v = true) :
    retrieve_calls search mf q mr = l₁ ++ [v] ∧
    retrieve_context search mf q mr = (gate_result search mf v).getD [] := by
  unfold retrieve_calls retrieve_context
  rw [hsplit, retrieve_trace_first_pass search mf v hv l₁ l₂ [] 0 hprev]
  exact ⟨rfl, rfl⟩

/-- Witness for C3: for query `"hi"` with one attempt, the original query
finds nothing, the second variant clears the gate, and the third variant is
never searched. -/
theorem c3_first_gate_pass_short_circuits_witness :
    retrieve_calls searchSecond none "hi" 1 = ["hi", "Ga language hi"] ∧
    retrieve_context searchSecond none "hi" 1 = [chunkGood] := by
  have hv : passes_gate searchSecond none "Ga language hi" = true := by
    rw [passes_gate_some
      (show searchSecond "Ga language hi" = some [chunkGood] from rfl)]
    show has_relevant_results [chunkGood] = true
    have hsc : MIN_RELEVANCE_SCORE ≤ chunkGood.score := by
      norm_num [MIN_RELEVANCE_SCORE, chunkGood]
    simp [has_relevant_results, hsc]
  have h := c3_first_gate_pass_short_circuits searchSecond none "hi" 1
    ["hi"] ["hi translation"] "Ga language hi" (by decide) (by decide) hv
  exact ⟨h.1, h.2.trans rfl⟩

theorem best_fold_cons_eq (r : List Chunk) (rs : List (List Chunk))
    (best : List Chunk) (bs : ℚ) :
    best_fold (r :: rs) best bs =
      if ¬ r.isEmpty ∧ bs < max_score_of r then
        best_fold rs r (max_score_of r)
      else
        best_fold rs best bs := rfl

theorem fold_max_cons_eq (r : List Chunk) (rs : List (List Chunk)) (b : ℚ) :
    fold_max (r :: rs) b =
      fold_max rs (if r.isEmpty then b else max b (max_score_of r)) := rfl

theorem fold_max_mono : ∀ (rs : List (List Chunk)) {b b' : ℚ}, b ≤ b' →
    fold_max rs b ≤ fold_max rs b' := by
  intro rs
  induction rs with
  | nil =>
    intro b b' h
    exact h
  | cons r rs ih =>
    intro b b' h
    rw [fold_max_cons_eq, fold_max_cons_eq]
    by_cases he : r.isEmpty
    · rw [if_pos he, if_pos he]
      exact ih h
    · rw [if_neg he, if_neg he]
      exact ih (max_le_max h le_rfl)

theorem le_fold_max : ∀ (rs : List (List Chunk)) (b : ℚ), b ≤ fold_max rs b := by
  intro rs
  induction rs with
  | nil =>
    intro b
    exact le_rfl
  | cons r rs ih =>
    intro b
    rw [fold_max_cons_eq]
    by_cases he : r.isEmpty
    · rw [if_pos he]
      exact ih b
    · rw [if_neg he]
      exact (le_max_left b (max_score_of r)).trans (ih _)

theorem find_max_attained :
    ∀ (rs : List (List Chunk)) (bs : ℚ), bs < fold_max rs bs →
      ∃ r', rs.find?
          (fun r => !r.isEmpty && (max_score_of r == fold_max rs bs)) =
        some r' := by
  intro rs
  induction rs with
  | nil =>
    intro bs h
    exact absurd h (lt_irrefl bs)
  | cons r rs ih =>
    intro bs h
    rw [fold_max_cons_eq] at h ⊢
    by_cases he : r.isEmpty
    · rw [if_pos he] at h ⊢
      obtain ⟨r', hr'⟩ := ih bs h
      refine ⟨r', ?_⟩
      rw [List.find?_cons_of_neg _ (by simp [he])]
      exact hr'
    · rw [if_neg he] at h ⊢
      by_cases hm : max_score_of r = fold_max rs (max bs (max_score_of r))
      · refine ⟨r, ?_⟩
        apply List.find?_cons_of_pos
        rw [Bool.and_eq_true, Bool.not_eq_true', beq_iff_eq]
        exact ⟨by simpa using he, hm⟩
      · have hmle : max_score_of r ≤ fold_max rs (max bs (max_score_of r)) :=
          (le_max_right bs (max_score_of r)).trans (le_fold_max _ _)
        have hmlt : max bs (max_score_of r) <
            fold_max rs (max bs (max_score_of r)) :=
          max_lt h (lt_of_le_of_ne hmle hm)
        obtain ⟨r', hr'⟩ := ih (max bs (max_score_of r)) hmlt
        refine ⟨r', ?_⟩
        rw [List.find?_cons_of_neg _ (by simp [hm])]
        exact hr'

theorem best_fold_eq_first_max :
    ∀ (rs : List (List Chunk)) (best : List Chunk) (bs : ℚ),
      best_fold rs best bs =
        if bs < fold_max rs bs then
          (rs.find?
            (fun r => !r.isEmpty && (max_score_of r == fold_max rs bs))).getD
            best
        else best := by
  intro rs
  induction rs with
  | nil =>
    intro best bs
    have h0 : fold_max [] bs = bs := rfl
    rw [h0, if_neg (lt_irrefl bs)]
    rfl
  | cons r rs ih =>
    intro best bs
    rw [best_fold_cons_eq, fold_max_cons_eq]
    by_cases he : r.isEmpty
    · rw [if_pos he, if_neg (by simp [he])]
      rw [ih best bs]
      by_cases hlt : bs < fold_max rs bs
      · rw [if_pos hlt, if_pos hlt,
          List.find?_cons_of_neg _ (by simp [he])]
      · rw [if_neg hlt, if_neg hlt]
    · rw [if_neg he]
      by_cases hup : bs < max_score_of r
      · rw [if_pos ⟨by simpa using he, hup⟩]
        have hmax : max bs (max_score_of r) = max_score_of r :=
          max_eq_right hup.le
        rw [hmax]
        have houter : bs < fold_max rs (max_score_of r) :=
          lt_of_lt_of_le hup (le_fold_max _ _)
        rw [if_pos houter, ih r (max_score_of r)]
        by_cases hlt : max_score_of r < fold_max rs (max_score_of r)
        · rw [if_pos hlt]
          obtain ⟨r', hr'⟩ := find_max_attained rs (max_score_of r) hlt
          have hne : (max_score_of r == fold_max rs (max_score_of r)) = false := by
            rw [beq_eq_false_iff_ne]
            exact ne_of_lt hlt
          rw [List.find?_cons_of_neg _ (by simp [hne])]
          rw [hr']
          rfl
        · have heq : fold_max rs (max_score_of r) = max_score_of r :=
            le_antisymm (not_lt.mp hlt) (le_fold_max _ _)
          rw [if_neg hlt, heq]
          rw [List.find?_cons_of_pos _ (by
            rw [Bool.and_eq_true, Bool.not_eq_true', beq_iff_eq]
            exact ⟨by simpa using he, rfl⟩)]
          rfl
      · rw [if_neg (by intro hc; exact hup hc.2)]
        have hmax : max bs (max_score_of r) = bs := max_eq_left (not_lt.mp hup)
        rw [hmax, ih best bs]
        by_cases hlt : bs < fold_max rs bs
        · rw [if_pos hlt, if_pos hlt]
          have hne : (max_score_of r == fold_max rs bs) = false := by
            rw [beq_eq_false_iff_ne]
            exact ne_of_lt (lt_of_le_of_lt (not_lt.mp hup) hlt)
          rw [List.find?_cons_of_neg _ (by simp [hne])]
        · rw [if_neg hlt, if_neg hlt]

theorem retrieve_trace_no_pass (search : String → Option (List Chunk))
    (mf : Option (List (String × String))) :
    ∀ (vs : List String) (best : List Chunk) (bs : ℚ),
      (∀ v ∈ vs, passes_gate search mf v = false) →
      (retrieve_trace search mf vs best bs).2 =
        best_fold (vs.filterMap (gate_result search mf)) best bs := by
  intro vs
  induction vs with
  | nil =>
    intro best bs _
    rfl
  | cons v vs ih =>
    intro best bs hnp
    have hv : passes_gate search mf v = false := hnp v (by simp)
    have hrest : ∀ u ∈ vs, passes_gate search mf u = false := by
      intro u hu
      exact hnp u (by simp [hu])
    rw [retrieve_trace_cons_eq]
    cases hsv : search v with
    | none =>
      have hg : gate_result search mf v = none := by
        unfold gate_result
        rw [hsv]
        rfl
      rw [List.filterMap_cons, hg]
      dsimp only
      exact ih best bs hrest
    | some raw =>
      have hrel : has_relevant_results (apply_filter mf raw) = false := by
        rw [passes_gate_some hsv] at hv
        exact hv
      have hg : gate_result search mf v = some (apply_filter mf raw) := by
        unfold gate_result
        rw [hsv]
        rfl
      rw [List.filterMap_cons, hg]
      dsimp only
      rw [if_neg (by rw [hrel]; exact Bool.false_ne_true), best_fold_cons_eq]
      by_cases hupd :
          ¬ (apply_filter mf raw).isEmpty ∧ bs < max_score_of (apply_filter mf raw)
      · rw [if_pos hupd, if_pos hupd]
        exact ih _ _ hrest
      · rw [if_neg hupd, if_neg hupd]
        exact ih best bs hrest

/-- C2 (amended): when no variant across all attempts clears the 0.3 gate,
`retrieve_context` returns the first non-empty filtered result whose
`max_score` equals the globally largest `max_score`, provided that largest
value is strictly positive (the running best starts at `0.0` and only a
strictly greater `max_score` replaces it); when no non-empty filtered result
has a strictly positive `max_score` — in particular when every filtered
result is empty or every search fails — it returns the empty list. -/
theorem c2_no_pass_returns_first_positive_max
    (search : String → Option (List Chunk))
    (mf : Option (List (String × String))) (q : String) (mr : ℕ)
    (hnp : ∀ v ∈ all_variants q mr, passes_gate search mf v = false) :
    retrieve_context search mf q mr =
      spec_best ((all_variants q mr).filterMap (gate_result search mf)) := by
  unfold retrieve_context spec_best
  rw [retrieve_trace_no_pass search mf (all_variants q mr) [] 0 hnp,
    best_fold_eq_first_max]

theorem passes_gate_zero (v : String) :
    passes_gate searchZero none v = false := by
  rw [passes_gate_some (show searchZero v = some [chunk0] from rfl)]
  show has_relevant_results [chunk0] = false
  have hlt : ¬ (MIN_RELEVANCE_SCORE ≤ chunk0.score) := by
    norm_num [MIN_RELEVANCE_SCORE, chunk0]
  simp [has_relevant_results, hlt]

theorem retrieve_trace_zero :
    ∀ (vs : List String) (best : List Chunk),
      retrieve_trace searchZero none vs best 0 = (vs, best) := by
  intro vs
  induction vs with
  | nil =>
    intro best
    rfl
  | cons v vs ih =>
    intro best
    rw [retrieve_trace_cons_eq]
    show (let nodes := apply_filter none [chunk0]
      if has_relevant_results nodes then
        ([v], nodes)
      else if ¬ nodes.isEmpty ∧ (0:ℚ) < max_score_of nodes then
        let r := retrieve_trace searchZero none vs nodes (max_score_of nodes)
        (v :: r.1, r.2)
      else
        let r := retrieve_trace searchZero none vs best 0
        (v :: r.1, r.2)) = (v :: vs, best)
    have hrel : has_relevant_results (apply_filter none [chunk0]) = false := by
      rw [← passes_gate_some (show searchZero v = some [chunk0] from rfl)]
      exact passes_gate_zero v
    dsimp only
    rw [if_neg (by rw [hrel]; exact Bool.false_ne_true)]
    rw [if_neg (by
      rintro ⟨-, hlt⟩
      simp [apply_filter, max_score_of, chunk0] at hlt)]
    rw [ih best]

/-- C2 counterexample: with a search oracle returning one chunk of score
exactly `0` for every variant of the query `"ga"`, no variant clears the
gate, every filtered result seen is the non-empty `[chunk0]` — so the claim
says the retriever must return `[chunk0]`, the non-empty result with the
globally largest `max_score` — yet `retrieve_context` returns the empty
list, because the running best starts at `0.0` and is only replaced by a
strictly greater `max_score`. -/
theorem c2_counterexample_zero_score :
    (∀ v ∈ all_variants "ga" 3, passes_gate searchZero none v = false) ∧
    (all_variants "ga" 3).filterMap (gate_result searchZero none) =
      List.replicate 8 [chunk0] ∧
    ([chunk0] : List Chunk) ≠ [] ∧
    retrieve_context searchZero none "ga" 3 = [] := by
  refine ⟨fun v _ => passes_gate_zero v, rfl, by simp, ?_⟩
  unfold retrieve_context
  rw [retrieve_trace_zero]

theorem passes_gate_low (v : String) :
    passes_gate searchLow none v = false := by
  rw [passes_gate_some (show searchLow v = some [chunkLow] from rfl)]
  show has_relevant_results [chunkLow] = false
  have hlt : ¬ (MIN_RELEVANCE_SCORE ≤ chunkLow.score) := by
    norm_num [MIN_RELEVANCE_SCORE, chunkLow]
  simp [has_relevant_results, hlt]

/-- Witness for the amended C2: a sub-gate positive-score oracle on query
`"hi"` with one attempt; the first non-empty positive-max filtered result
is returned. -/
theorem c2_no_pass_returns_first_positive_max_witness :
    retrieve_context searchLow none "hi" 1 =
      spec_best ((all_variants "hi" 1).filterMap (gate_result searchLow none)) ∧
    retrieve_context searchLow none "hi" 1 = [chunkLow] := by
  have h := c2_no_pass_returns_first_positive_max searchLow none "hi" 1
    (fun v _ => passes_gate_low v)
  refine ⟨h, h.trans ?_⟩
  show spec_best [[chunkLow], [chunkLow], [chunkLow]] = [chunkLow]
  have hne : ([chunkLow] : List Chunk).isEmpty = false := rfl
  have h0 : max (0:ℚ) (max_score_of [chunkLow]) = max_score_of [chunkLow] :=
    max_eq_right (by norm_num [max_score_of, chunkLow])
  have hM : fold_max [[chunkLow], [chunkLow], [chunkLow]] 0 =
      max_score_of [chunkLow] := by
    rw [fold_max_cons_eq, if_neg (by rw [hne]; exact Bool.false_ne_true), h0,
      fold_max_cons_eq, if_neg (by rw [hne]; exact Bool.false_ne_true),
      max_self, fold_max_cons_eq,
      if_neg (by rw [hne]; exact Bool.false_ne_true), max_self]
    rfl
  unfold spec_best
  dsimp only
  rw [hM, if_pos (by norm_num [max_score_of, chunkLow]),
    List.find?_cons_of_pos _ (by simp)]
  rfl

end Heritage
